import Mathlib

/-!
Verification of the teal-editor maintenance pipeline.

Shallow embedding of the TypeScript sources:
* `src/src/search.ts` (TID codec part): `decodeChar`, `tidToDate`, `tidInRange`
* `src/unnamed/part_001` (`records.ts`): `listAllRecords`, `getRecordsInRange`
* `src/unnamed/part_002` (`deleter.ts`): `deleteWithRetry`, `enforceRateLimit`,
  `deleteRecords`
* `src/src/analyze.ts`: the rapid-scrobble block detection loop

Numbers follow the sources: timestamps are integers of milliseconds
(JavaScript `Date.getTime()`), the TID value is a natural number of
microseconds (`BigInt` in the source), and integer division truncates
exactly as `BigInt` division does on non-negative values.
-/

namespace TealEditor

/-! ## Identifier codec (`tid.ts`, embedded in `src/src/search.ts`) -/

/-- The base32-sortable alphabet `B32_CHARS` from the source. -/
def B32_CHARS : List Char := "234567abcdefghijklmnopqrstuvwxyz".toList

/-- `decodeChar`: index of the lowercased character in the alphabet;
`none` models the thrown `Invalid base32 character` error. -/
def decodeChar (c : Char) : Option Nat :=
  B32_CHARS.indexOf? c.toLower

/-- A character accepted by `decodeChar` (member of the alphabet,
case-insensitively). -/
def validChar (c : Char) : Bool :=
  (decodeChar c).isSome

/-- The accumulator loop of `tidToDate`:
`timestamp = timestamp * 32n + decodeChar(char)`, failing when
`decodeChar` fails. -/
def decodeChars (acc : Nat) : List Char → Option Nat
  | [] => some acc
  | c :: cs =>
    match decodeChar c with
    | none => none
    | some d => decodeChars (acc * 32 + d) cs

/-- The microsecond value encoded by a TID: the length-13 check of
`tidToDate` followed by the base-32 accumulation over the first 11
characters. `none` models the thrown `Error`. -/
def tidMicros (tid : String) : Option Nat :=
  if tid.length = 13 then decodeChars 0 (tid.toList.take 11) else none

/-- `tidToDate`: microseconds divided by 1000 (truncating `BigInt`
division), as the millisecond value of the returned `Date`. -/
def tidToDate (tid : String) : Option Int :=
  (tidMicros tid).map (fun μ => ((μ / 1000 : Nat) : Int))

/-- `tidInRange`: `tidToDate(tid) >= start && tidToDate(tid) <= end`;
`none` models the propagated decode error. -/
def tidInRange (tid : String) (start stop : Int) : Option Bool :=
  (tidToDate tid).map (fun d => decide (start ≤ d) && decide (d ≤ stop))

/-- Pure digit value used for stating what `decodeChars` computes. -/
def digitVal (c : Char) : Nat :=
  (decodeChar c).getD 0

/-- Big-endian base-32 value of a digit string (the specification's
"treat the first 11 characters as base-32 digits, most-significant
first"). -/
def base32val (cs : List Char) : Nat :=
  cs.foldl (fun a c => a * 32 + digitVal c) 0

/-! ## Block clustering (`src/src/analyze.ts`, lines 117–141) -/

/-- A fetched record as used by the analyzer: record key plus decoded
millisecond timestamp. -/
structure PlayRecord where
  rkey : String
  timestamp : Int
  deriving DecidableEq, Repr

/-- An emitted block: the 1-based index passed to `reportBlock` and the
member records in order. -/
structure Block where
  index : Nat
  members : List PlayRecord
  deriving DecidableEq, Repr

/-- The loop body of `main` in `analyze.ts`: `prev` is the previous
input record (`records[i-1]`), `cur` the current in-progress block,
`idx` the next block index; a gap ≤ `gapMs` appends to the block,
otherwise the block is emitted iff its size reaches `minBlock`; the
final in-progress block is emitted under the same condition. -/
def findBlocksAux (gapMs : Int) (minBlock : Nat) :
    PlayRecord → List PlayRecord → Nat → List PlayRecord → List Block
  | _, cur, idx, [] =>
    if minBlock ≤ cur.length then [⟨idx, cur⟩] else []
  | prev, cur, idx, r :: rest =>
    if r.timestamp - prev.timestamp ≤ gapMs then
      findBlocksAux gapMs minBlock r (cur ++ [r]) idx rest
    else
      if minBlock ≤ cur.length then
        ⟨idx, cur⟩ :: findBlocksAux gapMs minBlock r [r] (idx + 1) rest
      else
        findBlocksAux gapMs minBlock r [r] idx rest

/-- The rapid-scrobble detection of `analyze.ts`: `gap` is in seconds
(`gapMs = gap * 1000`), the first record opens the first block with
index 1; the empty case models the `records.length === 0` early exit. -/
def findBlocks (gap : Int) (minBlock : Nat) : List PlayRecord → List Block
  | [] => []
  | r :: rest => findBlocksAux (gap * 1000) minBlock r [r] 1 rest

/-! ## Pagination (`records.ts` = `src/unnamed/part_001`, lines 16–41) -/

/-- Requested page size (`PAGE_SIZE = 100`). -/
def PAGE_SIZE : Nat := 100

/-- A raw entry of a `listRecords` response (only the `uri` field is
consumed by the source). -/
structure RawRecord where
  uri : String
  deriving DecidableEq, Repr

/-- One `listRecords` response: the records plus the optional next
cursor. -/
structure Page where
  records : List RawRecord
  cursor : Option String
  deriving DecidableEq

/-- JavaScript `uri.split('/')` for the single-character separator. -/
def splitSlash : List Char → List (List Char)
  | [] => [[]]
  | c :: cs =>
    if c = '/' then [] :: splitSlash cs
    else
      match splitSlash cs with
      | [] => [[c]]
      | h :: t => (c :: h) :: t

/-- `record.uri.split('/').pop()`: the record key is the last path
segment of the URI. -/
def extractRkey (uri : String) : String :=
  String.mk ((splitSlash uri.toList).getLastD [])

/-- An entry yielded by the generator: `{ uri, rkey }`. -/
structure Entry where
  uri : String
  rkey : String
  deriving DecidableEq, Repr

/-- The entries yielded for one page, in response order. -/
def pageEntries (p : Page) : List Entry :=
  p.records.map (fun r => ⟨r.uri, extractRkey r.uri⟩)

/-- JavaScript falsiness of the cursor (`!cursor`): absent or empty. -/
def cursorFalsy : Option String → Bool
  | none => true
  | some s => s = ""

/-- `listAllRecords` as a function of the sequence of responses the
service returns to the successive `listRecords` calls: each page's
entries are yielded, then iteration stops when the returned cursor is
falsy or the page is shorter than `PAGE_SIZE`. -/
def listAllRecords : List Page → List Entry
  | [] => []
  | p :: rest =>
    if cursorFalsy p.cursor || decide (p.records.length < PAGE_SIZE) then
      pageEntries p
    else
      pageEntries p ++ listAllRecords rest

/-! ## Deleter (`deleter.ts` = `src/unnamed/part_002`)

Time is explicit: every `sleep(ms)` advances the wall clock by exactly
`ms`, and remote calls themselves are instantaneous. The remote side is
a script `Nat → DeleteResp` giving the response to each successive
`deleteRecord` call of one `deleteWithRetry` invocation. -/

/-- `MAX_DELETIONS_PER_HOUR = 4500`. -/
def MAX_DELETIONS_PER_HOUR : Nat := 4500

/-- `HOUR_MS = 60 * 60 * 1000`. -/
def HOUR_MS : Int := 3600000

/-- `MAX_RETRIES = 3`. -/
def MAX_RETRIES : Nat := 3

/-- `BASE_DELAY_MS = 1000`. -/
def BASE_DELAY_MS : Int := 1000

/-- Outcome of one `deleteRecord` call: success, or a thrown error
carrying `status`, `message` and the optional `ratelimit-reset` header
(seconds since epoch). -/
inductive DeleteResp where
  | success
  | error (status : Nat) (message : String) (resetHint : Option Int)
  deriving DecidableEq

/-- JavaScript `haystack.includes(needle)` at a given start: the needle
is an initial segment of the haystack. -/
def listStartsWith : List Char → List Char → Bool
  | [], _ => true
  | _ :: _, [] => false
  | n :: ns, h :: hs => n = h && listStartsWith ns hs

/-- JavaScript `haystack.includes(needle)`: some suffix of the haystack
starts with the needle. -/
def listContainsSub (needle : List Char) : List Char → Bool
  | [] => needle.isEmpty
  | h :: t => listStartsWith needle (h :: t) || listContainsSub needle t

/-- `err.message?.includes('not found')`. -/
def containsNotFound (msg : String) : Bool :=
  listContainsSub "not found".toList msg.toList

/-- The wait before retrying after a 429: `ratelimit-reset` interpreted
as seconds since epoch if present, else 60000 ms, floored at 1000 ms
(`sleep(Math.max(waitMs, 1000))`). -/
def rlWait (hint : Option Int) (now : Int) : Int :=
  max (match hint with
       | some reset => reset * 1000 - now
       | none => 60000) 1000

/-- The retry loop of `deleteWithRetry`. `call` numbers the remote
calls, `rem` is the number of loop iterations left (starting at
`MAX_RETRIES`), `lastErr` the captured `lastError` message. Returns
`none` for a normal return (deletion succeeded or target absent) or
`some msg` for the thrown error, together with the wall clock on exit. -/
def deleteWithRetryGo (resp : Nat → DeleteResp) :
    Nat → Int → Option String → Nat → Option String × Int
  | _, now, lastErr, 0 => (some (lastErr.getD "Delete failed after retries"), now)
  | call, now, _lastErr, rem + 1 =>
    match resp call with
    | .success => (none, now)
    | .error status msg hint =>
      if status = 429 then
        deleteWithRetryGo resp (call + 1) (now + rlWait hint now) (some msg) rem
      else if status = 400 && containsNotFound msg then
        (none, now)
      else
        let delay := if 1 ≤ rem then BASE_DELAY_MS * 2 ^ (MAX_RETRIES - (rem + 1)) else 0
        deleteWithRetryGo resp (call + 1) (now + delay) (some msg) rem

/-- `deleteWithRetry(agent, repo, rkey)` under response script `resp`,
started at wall clock `now`. -/
def deleteWithRetry (resp : Nat → DeleteResp) (now : Int) : Option String × Int :=
  deleteWithRetryGo resp 0 now none MAX_RETRIES

/-- `RateLimitState` from the source. -/
structure RateLimitState where
  deletionsThisWindow : Nat
  windowStart : Int
  deriving DecidableEq, Repr

/-- Second half of `enforceRateLimit`: when the cap is reached, sleep
`HOUR_MS - (now - windowStart)` plus the 1 s buffer, then restart the
window at the new wall clock. Returns the updated state and wall
clock. -/
def enforceCap (s1 : RateLimitState) (now : Int) : RateLimitState × Int :=
  if MAX_DELETIONS_PER_HOUR ≤ s1.deletionsThisWindow then
    ({ deletionsThisWindow := 0,
       windowStart := now + (HOUR_MS - (now - s1.windowStart)) + 1000 },
     now + (HOUR_MS - (now - s1.windowStart)) + 1000)
  else (s1, now)

/-- `enforceRateLimit`: reset the window once an hour has elapsed, then
enforce the cap. -/
def enforceRateLimit (s : RateLimitState) (now : Int) : RateLimitState × Int :=
  enforceCap
    (if HOUR_MS ≤ now - s.windowStart then
      { deletionsThisWindow := 0, windowStart := now } else s) now

/-- A record to delete together with the response script its
`deleteWithRetry` invocation will observe. -/
structure DelRecord where
  rkey : String
  resp : Nat → DeleteResp

/-- Running state and result of `deleteRecords`: the `deleted`/`failed`
tallies and `errors` list, the mutable rate-limit state, the wall
clock, plus two histories for stating properties — the wall clock at
each successful deletion and `deletionsThisWindow` right after each
quota increment. -/
structure DelState where
  deleted : Nat
  failed : Nat
  errors : List String
  rl : RateLimitState
  now : Int
  deletionTimes : List Int
  counts : List Nat

/-- Tail of one `deleteRecords` iteration: fold the outcome of
`deleteWithRetry` (normal return `(none, t)` or thrown `(some msg, t)`)
into the running state, given the rate-limit state `rl1` produced by
`enforceRateLimit`; a normal return increments `deleted` and the window
counter, a throw appends the failure message; `sleep(50)` follows
either way. -/
def afterDelete (st : DelState) (rkey : String) (rl1 : RateLimitState) :
    Option String × Int → DelState
  | (none, t) =>
    { deleted := st.deleted + 1
      failed := st.failed
      errors := st.errors
      rl := { deletionsThisWindow := rl1.deletionsThisWindow + 1,
              windowStart := rl1.windowStart }
      now := t + 50
      deletionTimes := st.deletionTimes ++ [t]
      counts := st.counts ++ [rl1.deletionsThisWindow + 1] }
  | (some msg, t) =>
    { deleted := st.deleted
      failed := st.failed + 1
      errors := st.errors ++ ["Failed to delete " ++ rkey ++ ": " ++ msg]
      rl := rl1
      now := t + 50
      deletionTimes := st.deletionTimes
      counts := st.counts }

/-- One iteration of the `deleteRecords` loop: enforce the rate limit,
run `deleteWithRetry` at the resulting wall clock, fold in the
outcome. -/
def deleteStep (st : DelState) (r : DelRecord) : DelState :=
  afterDelete st r.rkey (enforceRateLimit st.rl st.now).1
    (deleteWithRetry r.resp (enforceRateLimit st.rl st.now).2)

/-- `deleteRecords(agent, repo, records, ...)` started at wall clock
`start` with a fresh rate-limit window. -/
def deleteRecords (records : List DelRecord) (start : Int) : DelState :=
  records.foldl deleteStep
    { deleted := 0, failed := 0, errors := [], rl := ⟨0, start⟩, now := start,
      deletionTimes := [], counts := [] }

/-- A record whose first delete call succeeds immediately. -/
def instaDelete (k : String) : DelRecord :=
  ⟨k, fun _ => .success⟩

/-! ## Record selection and ordering (`records.ts` line 88) -/

/-- `RecordRef` from `records.ts`: record key, URI and decoded creation
time (milliseconds). -/
structure RecordRef where
  rkey : String
  uri : String
  createdAt : Int
  deriving DecidableEq, Repr

/-- `matches.sort((a, b) => a.createdAt.getTime() - b.createdAt.getTime())`:
a stable comparator sort keyed on the decoded time, modelled by the
stable `insertionSort`. -/
def sortRecords (l : List RecordRef) : List RecordRef :=
  l.insertionSort (fun a b => a.createdAt ≤ b.createdAt)

/-- Lexicographic comparison of character lists (character order, then
tail). -/
def charListLe : List Char → List Char → Bool
  | [], _ => true
  | _ :: _, [] => false
  | a :: as, b :: bs =>
    if a < b then true else if b < a then false else charListLe as bs

/-- Lexicographic string comparison on the character sequences. -/
def lexLe (a b : String) : Bool :=
  charListLe a.toList b.toList

/-- Sorting identifiers lexicographically — the specification side of
the round-trip-ordering property (stable sort under `lexLe`). -/
def sortLex (l : List String) : List String :=
  l.insertionSort (fun a b => lexLe a b = true)

/-! ### Codec lemmas -/

theorem decodeChars_isSome (cs : List Char) :
    ∀ acc : Nat, (decodeChars acc cs).isSome = true ↔ ∀ c ∈ cs, validChar c = true := by
  induction cs with
  | nil => intro acc; simp [decodeChars]
  | cons c cs ih =>
    intro acc
    simp only [decodeChars]
    cases h : decodeChar c with
    | none => simp [h, validChar]
    | some d => simp [h, ih, validChar]

theorem base32val_aux (cs : List Char) :
    ∀ acc : Nat, cs.foldl (fun a c => a * 32 + digitVal c) acc
      = acc * 32 ^ cs.length + base32val cs := by
  induction cs with
  | nil => intro acc; simp [base32val]
  | cons c cs ih =>
    intro acc
    simp only [List.foldl_cons, List.length_cons, base32val]
    rw [ih (acc * 32 + digitVal c), ih (0 * 32 + digitVal c)]
    ring

theorem base32val_cons (c : Char) (cs : List Char) :
    base32val (c :: cs) = digitVal c * 32 ^ cs.length + base32val cs := by
  show List.foldl _ _ (c :: cs) = _
  rw [List.foldl_cons, base32val_aux]
  ring_nf

theorem decodeChars_eq_of_valid (cs : List Char) (h : ∀ c ∈ cs, validChar c = true) :
    ∀ acc : Nat, decodeChars acc cs
      = some (cs.foldl (fun a c => a * 32 + digitVal c) acc) := by
  induction cs with
  | nil => intro acc; simp [decodeChars]
  | cons c cs ih =>
    intro acc
    have hc : validChar c = true := h c (List.mem_cons_self c cs)
    have hcs : ∀ x ∈ cs, validChar x = true := fun x hx => h x (List.mem_cons_of_mem c hx)
    simp only [decodeChars, List.foldl_cons]
    cases hd : decodeChar c with
    | none => simp [validChar, hd] at hc
    | some d =>
      have hdv : digitVal c = d := by simp [digitVal, hd]
      show decodeChars (acc * 32 + d) cs = _
      rw [ih hcs, hdv]

theorem tidMicros_eq_of_valid (tid : String) (hlen : tid.length = 13)
    (hv : ∀ c ∈ tid.toList.take 11, validChar c = true) :
    tidMicros tid = some (base32val (tid.toList.take 11)) := by
  simp only [tidMicros, if_pos hlen]
  exact decodeChars_eq_of_valid _ hv 0

/-! ## Claim C1: characterization of decode failure -/

/-- C1 (counterexample): the claim says decoding fails whenever *any of
the 13 characters* lies outside the alphabet. The 13-character string
`"22222222222!!"` has its last two characters outside the alphabet, yet
`tidToDate` succeeds (it decodes only the first 11 characters). -/
theorem c1_counterexample :
    tidToDate "22222222222!!" = some 0 ∧ validChar '!' = false := by
  constructor <;> decide

/-- C1 (amended): decoding fails exactly when the length differs from 13
or one of the *first eleven* characters lies outside the 32-symbol
alphabet (case-insensitively); the trailing two characters are never
validated. -/
theorem c1_amended (tid : String) :
    (tidToDate tid).isSome = true
      ↔ (tid.length = 13 ∧ ∀ c ∈ tid.toList.take 11, validChar c = true) := by
  unfold tidToDate tidMicros
  by_cases hlen : tid.length = 13
  · rw [if_pos hlen, Option.isSome_map']
    rw [decodeChars_isSome]
    simp [hlen]
  · rw [if_neg hlen]
    simp [hlen]

/-- C1 witness: a fully valid 13-character identifier decodes
successfully, and a 12-character one does not. -/
theorem c1_witness :
    (tidToDate "3jzfcijpj2z2a").isSome = true
      ∧ (tidToDate "3jzfcijpj2z2").isSome = false := by
  exact ⟨(c1_amended "3jzfcijpj2z2a").mpr (by decide), by decide⟩

/-! ## Claim C4: the decoded value -/

/-- C4: for every 13-character identifier whose first eleven characters
are alphabet members, `tidToDate` returns the big-endian base-32 value
of the first eleven characters — microseconds since epoch — truncated by
integer division by 1000; `"2222222222222"` decodes to the epoch, and
the two trailing characters never affect the result. -/
theorem c4_decode_value :
    (∀ tid : String, tid.length = 13 → (∀ c ∈ tid.toList.take 11, validChar c = true) →
        tidToDate tid = some ((base32val (tid.toList.take 11) / 1000 : Nat) : Int))
    ∧ tidToDate "2222222222222" = some 0
    ∧ (∀ (pre s₁ s₂ : List Char), pre.length = 11 → s₁.length = 2 → s₂.length = 2 →
        tidToDate (String.mk (pre ++ s₁)) = tidToDate (String.mk (pre ++ s₂))) := by
  refine ⟨?_, by decide, ?_⟩
  · intro tid hlen hv
    simp [tidToDate, tidMicros_eq_of_valid tid hlen hv]
  · intro pre s₁ s₂ hpre hs₁ hs₂
    have hlen : ∀ s : List Char, s.length = 2 → (String.mk (pre ++ s)).length = 13 := by
      intro s hs
      show (pre ++ s).length = 13
      simp [hpre, hs]
    have htake : ∀ s : List Char, (String.mk (pre ++ s)).toList.take 11 = pre := by
      intro s
      show (pre ++ s).take 11 = pre
      exact List.take_left' hpre
    simp only [tidToDate, tidMicros, hlen s₁ hs₁, hlen s₂ hs₂, if_pos, htake]

/-- C4 witness: `"3222222222222"` encodes 32^10 = 1125899906842624
microseconds, which truncates to 1125899906842 ms, and replacing its
trailing suffix leaves the decoded time unchanged. -/
theorem c4_witness :
    tidToDate "3222222222222" = some 1125899906842
      ∧ tidToDate (String.mk ("32222222222".toList ++ ['a', 'b']))
          = tidToDate (String.mk ("32222222222".toList ++ ['z', 'z'])) := by
  constructor
  · exact (c4_decode_value.1 "3222222222222" (by decide) (by decide)).trans (by decide)
  · exact c4_decode_value.2.2 "32222222222".toList ['a', 'b'] ['z', 'z']
      (by decide) (by decide) (by decide)

/-! ## Claim C2: range inclusivity -/

/-- C2 (counterexample): the claim says a record whose encoded timestamp
lies even one microsecond outside either bound is excluded. The
identifier `"2222222222322"` encodes 1 μs — one microsecond after an end
bound of 0 ms (= 0 μs) — yet `tidInRange` includes it, because decoding
truncates microseconds to milliseconds. -/
theorem c2_counterexample :
    tidMicros "2222222222322" = some 1
      ∧ (0 : Int) * 1000 < 1
      ∧ tidInRange "2222222222322" 0 0 = some true := by
  refine ⟨by decide, by decide, by decide⟩

/-- C2 (amended): inclusion is decided on the millisecond-truncated
decoded time, inclusively on both bounds: a record of encoded value μ
microseconds is selected for bounds `[start, stop]` (milliseconds)
exactly when `1000*start ≤ μ ≤ 1000*stop + 999`. Equality with either
bound is included; a microsecond before `1000*start` is excluded, but up
to 999 μs past the end bound is still included. -/
theorem c2_amended (tid : String) (start stop : Int) (μ : Nat)
    (h : tidMicros tid = some μ) :
    tidInRange tid start stop = some true
      ↔ (1000 * start ≤ (μ : Int) ∧ (μ : Int) ≤ 1000 * stop + 999) := by
  simp only [tidInRange, tidToDate, h, Option.map_some', Option.some.injEq,
    Bool.and_eq_true, decide_eq_true_eq]
  omega

/-- C2 witness: the epoch identifier is included in the range `[0, 0]`
(equality with both bounds). -/
theorem c2_witness : tidInRange "2222222222222" 0 0 = some true :=
  (c2_amended "2222222222222" 0 0 0 (by decide)).mpr (by decide)

/-! ## Claim C6: clustering exactness -/

/-- C6: on records at 0 s, 10 s, 20 s, 90 s, 95 s, 100 s with a 45 s gap
threshold, `minBlock = 2` yields exactly the two blocks `{0,10,20}`
(index 1) and `{90,95,100}` (index 2), and `minBlock = 4` yields no
blocks. -/
theorem c6_clustering :
    findBlocks 45 2
        [⟨"a", 0⟩, ⟨"b", 10000⟩, ⟨"c", 20000⟩, ⟨"d", 90000⟩, ⟨"e", 95000⟩, ⟨"f", 100000⟩]
      = [⟨1, [⟨"a", 0⟩, ⟨"b", 10000⟩, ⟨"c", 20000⟩]⟩,
         ⟨2, [⟨"d", 90000⟩, ⟨"e", 95000⟩, ⟨"f", 100000⟩]⟩]
    ∧ findBlocks 45 4
        [⟨"a", 0⟩, ⟨"b", 10000⟩, ⟨"c", 20000⟩, ⟨"d", 90000⟩, ⟨"e", 95000⟩, ⟨"f", 100000⟩]
      = [] := by
  constructor <;> decide

/-! ## Claim C7: pagination termination and order -/

/-- C7: iteration ends with a page shorter than the requested size of
100 even when that response still carries a cursor; it also ends when
the cursor is absent; otherwise the page's entries are yielded in
response order followed by the rest of the sequence. -/
theorem c7_pagination (p : Page) (rest : List Page) :
    (p.records.length < PAGE_SIZE → listAllRecords (p :: rest) = pageEntries p)
    ∧ (p.cursor = none → listAllRecords (p :: rest) = pageEntries p)
    ∧ (cursorFalsy p.cursor = false → PAGE_SIZE ≤ p.records.length →
        listAllRecords (p :: rest) = pageEntries p ++ listAllRecords rest) := by
  refine ⟨?_, ?_, ?_⟩
  · intro h
    simp [listAllRecords, h]
  · intro h
    simp [listAllRecords, h, cursorFalsy]
  · intro h hlen
    simp [listAllRecords, h, Nat.not_lt.mpr hlen]

/-- C7 witness: a 1-record page that still carries a cursor ends the
iteration (a full junk page behind it is never fetched), a cursor-less
page ends it as well, and a full page with a cursor continues. -/
theorem c7_witness :
    listAllRecords [⟨[⟨"at://did:plc:x/fm.teal.alpha.feed.play/3jzfcijpj2z2a"⟩], some "cur"⟩,
        ⟨[⟨"junk"⟩], some "more"⟩]
      = [⟨"at://did:plc:x/fm.teal.alpha.feed.play/3jzfcijpj2z2a", "3jzfcijpj2z2a"⟩]
    ∧ listAllRecords [⟨[⟨"u"⟩], none⟩, ⟨[⟨"junk"⟩], some "more"⟩] = [⟨"u", "u"⟩]
    ∧ listAllRecords [⟨List.replicate 100 ⟨"u"⟩, some "cur"⟩, ⟨[⟨"v"⟩], none⟩]
      = pageEntries ⟨List.replicate 100 ⟨"u"⟩, some "cur"⟩
          ++ listAllRecords [⟨[⟨"v"⟩], none⟩] := by
  refine ⟨?_, ?_, ?_⟩
  · exact ((c7_pagination _ _).1 (by decide)).trans (by decide)
  · exact ((c7_pagination _ _).2.1 rfl).trans (by decide)
  · exact (c7_pagination ⟨List.replicate 100 ⟨"u"⟩, some "cur"⟩ _).2.2 (by decide)
      (by simp [PAGE_SIZE])

/-! ### Deleter helper lemmas -/

theorem enforceRateLimit_noop (c : Nat) (w now : Int)
    (hc : c < MAX_DELETIONS_PER_HOUR) (hh : now - w < HOUR_MS) :
    enforceRateLimit ⟨c, w⟩ now = (⟨c, w⟩, now) := by
  have h1 : ¬ HOUR_MS ≤ now - w := by omega
  have h2 : ¬ MAX_DELETIONS_PER_HOUR ≤ c := Nat.not_le.mpr hc
  simp [enforceRateLimit, enforceCap, h1, h2]

theorem deleteWithRetry_success (resp : Nat → DeleteResp) (now : Int)
    (h : resp 0 = .success) :
    deleteWithRetry resp now = (none, now) := by
  simp [deleteWithRetry, MAX_RETRIES, deleteWithRetryGo, h]

theorem deleteWithRetry_notFound (resp : Nat → DeleteResp) (now : Int)
    (msg : String) (hint : Option Int) (h : resp 0 = .error 400 msg hint)
    (hnf : containsNotFound msg = true) :
    deleteWithRetry resp now = (none, now) := by
  simp [deleteWithRetry, MAX_RETRIES, deleteWithRetryGo, h, hnf]

/-! ## Claim C3: 429 handling -/

/-- C3 (counterexample): the claim says that for any number of
consecutive 429 responses the record is never marked failed. Under a
script answering 429 to every call, `deleteWithRetry` exhausts its
three attempts (waiting 60 s each time) and throws, and `deleteRecords`
marks the record failed. -/
theorem c3_counterexample :
    deleteWithRetry (fun _ => .error 429 "Rate Limit Exceeded" none) 0
      = (some "Rate Limit Exceeded", 180000)
    ∧ (deleteRecords [⟨"3jzfcijpj2z2a", fun _ => .error 429 "Rate Limit Exceeded" none⟩] 0).failed
      = 1 := by
  constructor <;> decide

/-- C3 (amended): a 429 response makes the deleter wait — the reset
hint interpreted as seconds since epoch if present, otherwise 60 s,
with a 1 s minimum — and retry the same record; but each 429 consumes
one of the three loop attempts, so three consecutive 429 responses
exhaust the loop and the record is marked failed with the last 429's
message. -/
theorem c3_amended :
    (∀ (resp : Nat → DeleteResp) (now : Int) (msg : String) (hint : Option Int),
        resp 0 = .error 429 msg hint →
        deleteWithRetry resp now
          = deleteWithRetryGo resp 1 (now + rlWait hint now) (some msg) 2)
    ∧ (∀ (hint : Option Int) (now : Int), 1000 ≤ rlWait hint now)
    ∧ (∀ now : Int, rlWait none now = 60000)
    ∧ (∀ (resp : Nat → DeleteResp) (now : Int) (m₀ m₁ m₂ : String)
          (h₀ h₁ h₂ : Option Int),
        resp 0 = .error 429 m₀ h₀ → resp 1 = .error 429 m₁ h₁ →
        resp 2 = .error 429 m₂ h₂ →
        (deleteWithRetry resp now).1 = some m₂) := by
  refine ⟨?_, ?_, ?_, ?_⟩
  · intro resp now msg hint h
    simp [deleteWithRetry, MAX_RETRIES, deleteWithRetryGo, h]
  · intro hint now
    exact le_max_right _ _
  · intro now
    norm_num [rlWait]
  · intro resp now m₀ m₁ m₂ h₀ h₁ h₂ hr₀ hr₁ hr₂
    simp [deleteWithRetry, MAX_RETRIES, deleteWithRetryGo, hr₀, hr₁, hr₂]

/-- C3 witness: three consecutive 429 responses (no reset hint) leave
the record failed, after the first 429 triggered a 60 s wait and a
retry. -/
theorem c3_witness :
    (deleteWithRetry (fun _ => .error 429 "RL" (some 120)) 0).1 = some "RL"
    ∧ deleteWithRetry (fun _ => .error 429 "RL" none) 500
      = deleteWithRetryGo (fun _ => .error 429 "RL" none) 1 (500 + rlWait none 500)
          (some "RL") 2 := by
  exact ⟨c3_amended.2.2.2 _ 0 "RL" "RL" "RL" _ _ _ rfl rfl rfl,
    c3_amended.1 _ 500 "RL" none rfl⟩

/-! ## Claim C9: idempotent delete -/

/-- C9: a 400-status response whose message contains a not-found
indicator is treated as success — `deleteWithRetry` returns normally at
unchanged wall clock — and deleting the same record key twice, the
second delete answered by such a not-found error, yields two successes:
both records counted deleted, none failed, no error message recorded. -/
theorem c9_idempotent_delete :
    (∀ (resp : Nat → DeleteResp) (now : Int) (msg : String) (hint : Option Int),
        resp 0 = .error 400 msg hint → containsNotFound msg = true →
        deleteWithRetry resp now = (none, now))
    ∧ (∀ (k : String) (t₀ : Int) (msg : String) (hint : Option Int),
        containsNotFound msg = true →
        let res := deleteRecords
          [⟨k, fun _ => .success⟩, ⟨k, fun _ => .error 400 msg hint⟩] t₀
        res.deleted = 2 ∧ res.failed = 0 ∧ res.errors = []) := by
  constructor
  · exact deleteWithRetry_notFound
  · intro k t₀ msg hint hnf
    have e1 : deleteStep ⟨0, 0, [], ⟨0, t₀⟩, t₀, [], []⟩ ⟨k, fun _ => .success⟩
        = ⟨1, 0, [], ⟨1, t₀⟩, t₀ + 50, [t₀], [1]⟩ := by
      rw [deleteStep, enforceRateLimit_noop 0 t₀ t₀ (by decide)
        (by simp only [HOUR_MS]; omega), deleteWithRetry_success _ _ rfl]
      rfl
    have e2 : deleteStep ⟨1, 0, [], ⟨1, t₀⟩, t₀ + 50, [t₀], [1]⟩
        ⟨k, fun _ => .error 400 msg hint⟩
        = ⟨2, 0, [], ⟨2, t₀⟩, t₀ + 100, [t₀, t₀ + 50], [1, 2]⟩ := by
      rw [deleteStep, enforceRateLimit_noop 1 t₀ (t₀ + 50) (by decide)
        (by simp only [HOUR_MS]; omega),
        deleteWithRetry_notFound (fun _ => .error 400 msg hint) (t₀ + 50) msg hint rfl hnf]
      show DelState.mk 2 0 [] ⟨2, t₀⟩ (t₀ + 50 + 50) [t₀, t₀ + 50] [1, 2] = _
      simp only [DelState.mk.injEq, and_true, true_and, eq_self_iff_true]
      ring
    simp only [deleteRecords, List.foldl_cons, List.foldl_nil, e1, e2]
    exact ⟨trivial, trivial, trivial⟩

/-- C9 witness: deleting record `3jzfcijpj2z2a` twice — the second
attempt answered `Could not locate record: not found` — succeeds both
times with no failure recorded. -/
theorem c9_witness :
    (deleteRecords [⟨"3jzfcijpj2z2a", fun _ => .success⟩,
        ⟨"3jzfcijpj2z2a", fun _ => .error 400 "Could not locate record: not found" none⟩]
        7).deleted = 2 :=
  (c9_idempotent_delete.2 "3jzfcijpj2z2a" 7 "Could not locate record: not found" none
    (by decide)).1

/-! ## Claim C10: already-absent deletes consume quota -/

/-- C10: a record whose delete resolves through the not-found branch is
counted in the `deleted` total and increments the rate-limit window
counter, exactly like a genuine deletion. -/
theorem c10_absent_consumes_quota (k : String) (t₀ : Int) (msg : String)
    (hint : Option Int) (hnf : containsNotFound msg = true) :
    let res := deleteRecords [⟨k, fun _ => .error 400 msg hint⟩] t₀
    res.deleted = 1 ∧ res.rl.deletionsThisWindow = 1 ∧ res.failed = 0 := by
  intro res
  show (deleteRecords _ _).deleted = 1 ∧ (deleteRecords _ _).rl.deletionsThisWindow = 1
    ∧ (deleteRecords _ _).failed = 0
  simp only [deleteRecords, List.foldl_cons, List.foldl_nil, deleteStep,
    enforceRateLimit_noop 0 t₀ t₀ (by decide) (by simp only [HOUR_MS]; omega),
    deleteWithRetry_notFound (fun _ => .error 400 msg hint) t₀ msg hint rfl hnf]
  exact ⟨rfl, rfl, rfl⟩

/-- C10 witness: one already-absent record, deleted tally 1 and window
counter 1. -/
theorem c10_witness :
    (deleteRecords [⟨"3jzfcijpj2z2a",
        fun _ => .error 400 "record not found" none⟩] 0).rl.deletionsThisWindow = 1 :=
  (c10_absent_consumes_quota "3jzfcijpj2z2a" 0 "record not found" none (by decide)).2.1

/-! ## Claim C8: hourly rate quota -/

theorem enforceCap_count_lt (s1 : RateLimitState) (now : Int) :
    (enforceCap s1 now).1.deletionsThisWindow < MAX_DELETIONS_PER_HOUR := by
  unfold enforceCap
  split
  · show (0 : Nat) < MAX_DELETIONS_PER_HOUR
    decide
  · next h => exact Nat.lt_of_not_le h

theorem enforceRateLimit_count_lt (s : RateLimitState) (now : Int) :
    (enforceRateLimit s now).1.deletionsThisWindow < MAX_DELETIONS_PER_HOUR := by
  unfold enforceRateLimit
  exact enforceCap_count_lt _ _

theorem deleteStep_counts_bound (st : DelState) (r : DelRecord)
    (h : ∀ x ∈ st.counts, x ≤ MAX_DELETIONS_PER_HOUR) :
    ∀ x ∈ (deleteStep st r).counts, x ≤ MAX_DELETIONS_PER_HOUR := by
  have hc := enforceRateLimit_count_lt st.rl st.now
  unfold deleteStep
  rcases hdr : deleteWithRetry r.resp (enforceRateLimit st.rl st.now).2 with ⟨res, t⟩
  cases res with
  | none =>
    intro x hx
    simp only [afterDelete] at hx
    rcases List.mem_append.mp hx with h1 | h1
    · exact h x h1
    · have : x = (enforceRateLimit st.rl st.now).1.deletionsThisWindow + 1 := by
        simpa using h1
      omega
  | some msg =>
    intro x hx
    simp only [afterDelete] at hx
    exact h x hx

theorem deleteRecords_counts_bound_aux (records : List DelRecord) :
    ∀ st : DelState, (∀ x ∈ st.counts, x ≤ MAX_DELETIONS_PER_HOUR) →
      ∀ x ∈ (records.foldl deleteStep st).counts, x ≤ MAX_DELETIONS_PER_HOUR := by
  induction records with
  | nil => intro st h; exact h
  | cons r rs ih => intro st h; exact ih _ (deleteStep_counts_bound st r h)

theorem enforceRateLimit_cap (c : Nat) (w now : Int)
    (hc : MAX_DELETIONS_PER_HOUR ≤ c) (hh : now - w < HOUR_MS) :
    enforceRateLimit ⟨c, w⟩ now
      = (⟨0, w + HOUR_MS + 1000⟩, w + HOUR_MS + 1000) := by
  have h1 : ¬ HOUR_MS ≤ now - w := by omega
  have h2 : now + (HOUR_MS - (now - w)) + 1000 = w + HOUR_MS + 1000 := by ring
  simp only [enforceRateLimit, enforceCap, if_neg h1, if_pos hc, h2]

/-- A run of instantly-deletable records inside the quota: each of the
`n` records is deleted 50 ms after the previous one (the inter-record
sleep), the window never resets, the counter advances by one per
record. -/
theorem run_insta_steady (k : String) (t₀ : Int) :
    ∀ (n c : Nat) (st : DelState), st.rl = ⟨c, t₀⟩ → st.now = t₀ + 50 * c →
      c + n ≤ MAX_DELETIONS_PER_HOUR →
      ((List.replicate n (instaDelete k)).foldl deleteStep st).rl = ⟨c + n, t₀⟩
      ∧ ((List.replicate n (instaDelete k)).foldl deleteStep st).now
          = t₀ + 50 * (c + n) := by
  intro n
  induction n with
  | zero =>
    intro c st h1 h2 _
    refine ⟨by rw [List.replicate_zero, List.foldl_nil, h1]; simp,
      by rw [List.replicate_zero, List.foldl_nil, h2]; push_cast; ring⟩
  | succ n ih =>
    intro c st h1 h2 hle
    have hcap : c < MAX_DELETIONS_PER_HOUR := by omega
    have hhr : t₀ + 50 * (c : Int) - t₀ < HOUR_MS := by
      show t₀ + 50 * (c : Int) - t₀ < 3600000
      have : (c : Int) < 4500 := by exact_mod_cast hcap
      omega
    rw [List.replicate_succ, List.foldl_cons]
    have hstep : deleteStep st (instaDelete k)
        = afterDelete st k ⟨c, t₀⟩ (none, t₀ + 50 * c) := by
      rw [deleteStep, h1, h2, enforceRateLimit_noop c t₀ (t₀ + 50 * c) hcap hhr,
        deleteWithRetry_success _ _ rfl]
      rfl
    rw [hstep]
    have := ih (c + 1) (afterDelete st k ⟨c, t₀⟩ (none, t₀ + 50 * c))
      (by simp [afterDelete]) (by simp [afterDelete]; ring) (by omega)
    rcases this with ⟨ha, hb⟩
    refine ⟨?_, ?_⟩
    · rw [ha]
      congr 1
      omega
    · rw [hb]
      congr 1
      omega

/-- C8: `deletionsThisWindow` never exceeds the configured cap of 4500
after any quota-counted deletion, and with 4501 instantly-deletable
records the 4501-th deletion is delayed until the window's one-hour
mark plus the 1 s buffer — the first 4500 take 50 ms each, then the
deleter suspends until `start + HOUR_MS + 1000`. -/
theorem c8_rate_quota :
    (∀ (records : List DelRecord) (start : Int),
        ∀ x ∈ (deleteRecords records start).counts, x ≤ MAX_DELETIONS_PER_HOUR)
    ∧ (∀ (k : String) (t₀ : Int),
        (deleteRecords (List.replicate (MAX_DELETIONS_PER_HOUR + 1) (instaDelete k))
            t₀).deletionTimes.getLast? = some (t₀ + HOUR_MS + 1000)
        ∧ t₀ + HOUR_MS ≤ t₀ + HOUR_MS + 1000) := by
  constructor
  · intro records start
    exact deleteRecords_counts_bound_aux records _ (by simp)
  · intro k t₀
    refine ⟨?_, by omega⟩
    rw [deleteRecords, List.replicate_succ', List.foldl_append, List.foldl_cons,
      List.foldl_nil]
    have hmid := run_insta_steady k t₀ MAX_DELETIONS_PER_HOUR 0
      ⟨0, 0, [], ⟨0, t₀⟩, t₀, [], []⟩ rfl (by simp) (by omega)
    rcases hmid with ⟨ha, hb⟩
    rw [Nat.zero_add] at ha
    have hb' : (List.foldl deleteStep
        ⟨0, 0, [], ⟨0, t₀⟩, t₀, [], []⟩
        (List.replicate MAX_DELETIONS_PER_HOUR (instaDelete k))).now
        = t₀ + 50 * ((MAX_DELETIONS_PER_HOUR : Nat) : Int) := by
      rw [hb]; push_cast; ring
    rw [deleteStep, ha, hb', enforceRateLimit_cap MAX_DELETIONS_PER_HOUR t₀ _ le_rfl
      (by show t₀ + 50 * ((MAX_DELETIONS_PER_HOUR : Nat) : Int) - t₀ < 3600000
          norm_num [MAX_DELETIONS_PER_HOUR]),
      deleteWithRetry_success _ _ rfl]
    simp [afterDelete]

/-- C8 witness: in a two-record run the window counter stays at most
4500 (its trace is `[1, 2]`, both within the cap). -/
theorem c8_witness :
    2 ∈ (deleteRecords [instaDelete "a", instaDelete "b"] 0).counts
      ∧ 2 ≤ MAX_DELETIONS_PER_HOUR :=
  ⟨by decide, c8_rate_quota.1 [instaDelete "a", instaDelete "b"] 0 2 (by decide)⟩

/-! ### Lexicographic order lemmas -/

theorem charListLe_cons (a b : Char) (as bs : List Char) :
    charListLe (a :: as) (b :: bs) = true
      ↔ (a < b ∨ (a = b ∧ charListLe as bs = true)) := by
  show (if a < b then true else if b < a then false else charListLe as bs) = true ↔ _
  by_cases h1 : a < b
  · simp [h1]
  · by_cases h2 : b < a
    · have hne : a ≠ b := fun he => absurd (he ▸ h2) (lt_irrefl _)
      simp [h1, h2, hne]
    · have heq : a = b := le_antisymm (not_lt.mp h2) (not_lt.mp h1)
      simp [h1, h2, heq]

theorem charListLe_refl (l : List Char) : charListLe l l = true := by
  induction l with
  | nil => rfl
  | cons a as ih =>
    rw [charListLe_cons]
    exact Or.inr ⟨rfl, ih⟩

theorem charListLe_total (l₁ l₂ : List Char) :
    charListLe l₁ l₂ = true ∨ charListLe l₂ l₁ = true := by
  induction l₁ generalizing l₂ with
  | nil => exact Or.inl rfl
  | cons a as ih =>
    cases l₂ with
    | nil => exact Or.inr rfl
    | cons b bs =>
      rcases lt_trichotomy a b with h | h | h
      · exact Or.inl (by rw [charListLe_cons]; exact Or.inl h)
      · rcases ih bs with h2 | h2
        · exact Or.inl (by rw [charListLe_cons]; exact Or.inr ⟨h, h2⟩)
        · exact Or.inr (by rw [charListLe_cons]; exact Or.inr ⟨h.symm, h2⟩)
      · exact Or.inr (by rw [charListLe_cons]; exact Or.inl h)

theorem charListLe_trans (l₁ l₂ l₃ : List Char) (h12 : charListLe l₁ l₂ = true)
    (h23 : charListLe l₂ l₃ = true) : charListLe l₁ l₃ = true := by
  induction l₁ generalizing l₂ l₃ with
  | nil => rfl
  | cons a as ih =>
    cases l₂ with
    | nil => exact absurd h12 (by simp [charListLe])
    | cons b bs =>
      cases l₃ with
      | nil => exact absurd h23 (by simp [charListLe])
      | cons c cs =>
        rw [charListLe_cons] at h12 h23 ⊢
        rcases h12 with h | ⟨he, hr⟩
        · rcases h23 with h2 | ⟨he2, _⟩
          · exact Or.inl (lt_trans h h2)
          · subst he2
            exact Or.inl h
        · subst he
          rcases h23 with h2 | ⟨he2, hr2⟩
          · exact Or.inl h2
          · exact Or.inr ⟨he2, ih bs cs hr hr2⟩

theorem charListLe_antisymm (l₁ l₂ : List Char) (h12 : charListLe l₁ l₂ = true)
    (h21 : charListLe l₂ l₁ = true) : l₁ = l₂ := by
  induction l₁ generalizing l₂ with
  | nil =>
    cases l₂ with
    | nil => rfl
    | cons b bs => exact absurd h21 (by simp [charListLe])
  | cons a as ih =>
    cases l₂ with
    | nil => exact absurd h12 (by simp [charListLe])
    | cons b bs =>
      rw [charListLe_cons] at h12 h21
      rcases h12 with h | ⟨he, hr⟩
      · rcases h21 with h2 | ⟨he2, _⟩
        · exact absurd h2 (lt_asymm h)
        · subst he2
          exact absurd h (lt_irrefl _)
      · subst he
        rcases h21 with h2 | ⟨_, hr2⟩
        · exact absurd h2 (lt_irrefl _)
        · rw [ih bs hr hr2]

/-! ### Digit value versus character order -/

theorem mem_validChar : ∀ c ∈ B32_CHARS, validChar c = true := by decide

theorem digit_lt_32 : ∀ c ∈ B32_CHARS, digitVal c < 32 := by decide

theorem digit_order :
    ∀ c ∈ B32_CHARS, ∀ d ∈ B32_CHARS, (digitVal c < digitVal d ↔ c < d) := by decide

theorem base32val_lt (cs : List Char) (h : ∀ c ∈ cs, c ∈ B32_CHARS) :
    base32val cs < 32 ^ cs.length := by
  induction cs with
  | nil => simp [base32val]
  | cons c cs ih =>
    rw [base32val_cons]
    have hd : digitVal c < 32 := digit_lt_32 c (h c (List.mem_cons_self c cs))
    have hr : base32val cs < 32 ^ cs.length :=
      ih (fun x hx => h x (List.mem_cons_of_mem c hx))
    calc digitVal c * 32 ^ cs.length + base32val cs
        < digitVal c * 32 ^ cs.length + 32 ^ cs.length := by omega
      _ = (digitVal c + 1) * 32 ^ cs.length := by ring
      _ ≤ 32 * 32 ^ cs.length := Nat.mul_le_mul_right _ (by omega)
      _ = 32 ^ (c :: cs).length := by rw [List.length_cons]; ring

/-- A strictly smaller base-32 value over equal-length alphabet digit
strings forces strictly earlier lexicographic order, whatever trailing
suffixes follow. -/
theorem base32val_lt_lex (xs : List Char) :
    ∀ ys : List Char, xs.length = ys.length →
      (∀ c ∈ xs, c ∈ B32_CHARS) → (∀ c ∈ ys, c ∈ B32_CHARS) →
      base32val xs < base32val ys →
      ∀ s t : List Char, charListLe (xs ++ s) (ys ++ t) = true := by
  induction xs with
  | nil =>
    intro ys hlen _ _ hv
    cases ys with
    | nil => exact absurd hv (by simp [base32val])
    | cons b bs => exact absurd hlen (by simp)
  | cons a as ih =>
    intro ys hlen hx hy hv
    cases ys with
    | nil => exact absurd hlen (by simp)
    | cons b bs =>
      intro s t
      have hlen' : as.length = bs.length := by simpa using hlen
      have ha : a ∈ B32_CHARS := hx a (List.mem_cons_self _ _)
      have hb : b ∈ B32_CHARS := hy b (List.mem_cons_self _ _)
      have has : ∀ c ∈ as, c ∈ B32_CHARS := fun c hc => hx c (List.mem_cons_of_mem _ hc)
      have hbs : ∀ c ∈ bs, c ∈ B32_CHARS := fun c hc => hy c (List.mem_cons_of_mem _ hc)
      rw [base32val_cons, base32val_cons, hlen'] at hv
      show charListLe (a :: (as ++ s)) (b :: (bs ++ t)) = true
      rw [charListLe_cons]
      rcases Nat.lt_trichotomy (digitVal a) (digitVal b) with hd | hd | hd
      · exact Or.inl ((digit_order a ha b hb).mp hd)
      · have heq : a = b := by
          by_contra hne
          rcases lt_or_gt_of_ne hne with hlt | hgt
          · have := (digit_order a ha b hb).mpr hlt
            omega
          · have := (digit_order b hb a ha).mpr hgt
            omega
        rw [hd] at hv
        have hvv : base32val as < base32val bs := (Nat.add_lt_add_iff_left).mp hv
        exact Or.inr ⟨heq, ih bs hlen' has hbs hvv s t⟩
      · exfalso
        have hbnd : base32val bs < 32 ^ bs.length := base32val_lt bs hbs
        have hchain : digitVal b * 32 ^ bs.length + base32val bs
            < (digitVal b + 1) * 32 ^ bs.length := by
          rw [Nat.add_mul, Nat.one_mul]
          exact Nat.add_lt_add_left hbnd _
        have h2 : (digitVal b + 1) * 32 ^ bs.length ≤ digitVal a * 32 ^ bs.length :=
          Nat.mul_le_mul_right _ hd
        have h3 : digitVal a * 32 ^ bs.length
            ≤ digitVal a * 32 ^ bs.length + base32val as := Nat.le_add_right _ _
        exact absurd hv (Nat.not_lt.mpr (le_of_lt (lt_of_lt_of_le hchain (le_trans h2 h3))))

/-- A strictly earlier decoded (millisecond) time forces lexicographically
earlier identifiers, for canonical lowercase identifiers. -/
theorem tid_lt_lexLe (a b : String)
    (ha : a.length = 13) (hva : ∀ c ∈ a.toList.take 11, c ∈ B32_CHARS)
    (hb : b.length = 13) (hvb : ∀ c ∈ b.toList.take 11, c ∈ B32_CHARS)
    (da db : Int) (hda : tidToDate a = some da) (hdb : tidToDate b = some db)
    (hlt : da < db) : lexLe a b = true := by
  have hma : tidMicros a = some (base32val (a.toList.take 11)) :=
    tidMicros_eq_of_valid a ha (fun c hc => mem_validChar c (hva c hc))
  have hmb : tidMicros b = some (base32val (b.toList.take 11)) :=
    tidMicros_eq_of_valid b hb (fun c hc => mem_validChar c (hvb c hc))
  rw [tidToDate, hma, Option.map_some'] at hda
  rw [tidToDate, hmb, Option.map_some'] at hdb
  have hda' := Option.some.inj hda
  have hdb' := Option.some.inj hdb
  have hdiv : base32val (a.toList.take 11) / 1000 < base32val (b.toList.take 11) / 1000 := by
    have : da < db := hlt
    rw [← hda', ← hdb'] at this
    exact_mod_cast this
  have hmicro : base32val (a.toList.take 11) < base32val (b.toList.take 11) := by
    by_contra hcon
    exact absurd hdiv (Nat.not_lt.mpr (Nat.div_le_div_right (Nat.not_lt.mp hcon)))
  have hlena : a.toList.length = 13 := ha
  have hlenb : b.toList.length = 13 := hb
  have htakea : (a.toList.take 11).length = 11 := by
    rw [List.length_take, hlena]; decide
  have htakeb : (b.toList.take 11).length = 11 := by
    rw [List.length_take, hlenb]; decide
  have hlex := base32val_lt_lex (a.toList.take 11) (b.toList.take 11)
    (htakea.trans htakeb.symm) hva hvb hmicro (a.toList.drop 11) (b.toList.drop 11)
  rw [List.take_append_drop, List.take_append_drop] at hlex
  exact hlex

/-! ## Claim C5: round-trip ordering -/

/-- C5 (counterexample): the identifiers `"2222222222422"` (encoding
2 μs) and `"2222222222322"` (encoding 1 μs) are valid with distinct
encoded timestamps, but both decode to 0 ms after truncation; with
input order `[422, 322]` the stable sort by decoded time keeps that
order while lexicographic sorting swaps it, so the two orders differ. -/
theorem c5_counterexample :
    tidMicros "2222222222422" = some 2
      ∧ tidMicros "2222222222322" = some 1
      ∧ tidToDate "2222222222422" = some 0
      ∧ tidToDate "2222222222322" = some 0
      ∧ (sortRecords [⟨"2222222222422", "u", 0⟩, ⟨"2222222222322", "v", 0⟩]).map
            RecordRef.rkey
          ≠ sortLex ["2222222222422", "2222222222322"] := by
  refine ⟨by decide, by decide, by decide, by decide, by decide⟩

/-- C5 (amended): for records whose identifiers are canonical lowercase
TIDs decoding to their `createdAt`, and whose decoded millisecond times
are distinct whenever their identifiers differ (ties only between equal
identifiers), sorting the records ascending by decoded time lists the
identifiers in exactly lexicographic order. The original claim fails
when distinct encoded microsecond timestamps collapse onto one
millisecond (and for non-canonical mixed-case identifiers). -/
theorem c5_amended (l : List RecordRef)
    (hv : ∀ r ∈ l, r.rkey.length = 13
        ∧ (∀ c ∈ r.rkey.toList.take 11, c ∈ B32_CHARS)
        ∧ tidToDate r.rkey = some r.createdAt)
    (hd : ∀ r ∈ l, ∀ r' ∈ l, r.createdAt = r'.createdAt → r.rkey = r'.rkey) :
    (sortRecords l).map RecordRef.rkey = sortLex (l.map RecordRef.rkey) := by
  have hperm1 : (sortRecords l).Perm l := by
    unfold sortRecords
    exact List.perm_insertionSort _ l
  have hsorted1 : List.Sorted (fun a b : RecordRef => a.createdAt ≤ b.createdAt)
      (sortRecords l) := by
    haveI : IsTotal RecordRef (fun a b => a.createdAt ≤ b.createdAt) :=
      ⟨fun a b => le_total _ _⟩
    haveI : IsTrans RecordRef (fun a b => a.createdAt ≤ b.createdAt) :=
      ⟨fun _ _ _ => le_trans⟩
    exact List.sorted_insertionSort _ l
  have hsorted2 : List.Sorted (fun a b : String => lexLe a b = true)
      (sortLex (l.map RecordRef.rkey)) := by
    haveI : IsTotal String (fun a b => lexLe a b = true) :=
      ⟨fun a b => charListLe_total _ _⟩
    haveI : IsTrans String (fun a b => lexLe a b = true) :=
      ⟨fun _ _ _ => charListLe_trans _ _ _⟩
    exact List.sorted_insertionSort _ _
  have hmap : List.Sorted (fun a b : String => lexLe a b = true)
      ((sortRecords l).map RecordRef.rkey) := by
    rw [List.Sorted, List.pairwise_map]
    refine List.Pairwise.imp_of_mem ?_ hsorted1
    intro a b hma hmb hle
    have ha' := hv a (hperm1.mem_iff.mp hma)
    have hb' := hv b (hperm1.mem_iff.mp hmb)
    rcases lt_or_eq_of_le hle with hlt | heq2
    · exact tid_lt_lexLe a.rkey b.rkey ha'.1 ha'.2.1 hb'.1 hb'.2.1
        a.createdAt b.createdAt ha'.2.2 hb'.2.2 hlt
    · rw [hd a (hperm1.mem_iff.mp hma) b (hperm1.mem_iff.mp hmb) heq2]
      exact charListLe_refl _
  haveI : IsAntisymm String (fun a b => lexLe a b = true) :=
    ⟨fun a b h1 h2 => String.ext (charListLe_antisymm _ _ h1 h2)⟩
  have hperm : ((sortRecords l).map RecordRef.rkey).Perm
      (sortLex (l.map RecordRef.rkey)) :=
    (hperm1.map RecordRef.rkey).trans
      (List.perm_insertionSort (fun a b => lexLe a b = true) _).symm
  exact List.eq_of_perm_of_sorted hperm hmap hsorted2

/-- C5 witness: two canonical identifiers with distinct decoded
millisecond times — sorting by decoded time agrees with lexicographic
order. -/
theorem c5_witness :
    (sortRecords [⟨"3222222222222", "u", 1125899906842⟩,
        ⟨"2222222222322", "v", 0⟩]).map RecordRef.rkey
      = sortLex (List.map RecordRef.rkey
          [⟨"3222222222222", "u", 1125899906842⟩, ⟨"2222222222322", "v", 0⟩]) :=
  c5_amended _ (by decide) (by decide)

end TealEditor
